import Mathlib

/-!
Verification of the dereth-cartography archive reader (exp.c, exc.c, acbmp.c,
mapac.c) against its specification.

The archive is modelled as a map from byte offsets to sectors; a sector is a
list of 32-bit little-endian words (each word a natural number, values below
2^32 on a real archive).  C bitmasks on 32-bit words are translated to
arithmetic on Nat: `w & 0x7FFFFFFF` becomes `w % 2^31`, `w >> 24` becomes
`w / 2^24`, `(w & 0x00FF0000) >> 16` becomes `w / 2^16 % 2^8`.
-/

/-- The host file, as a partial map from byte offset to the sector stored
there.  `disk.lookup off` models a seek to `off` followed by a sector read. -/
abbrev Disk := List (Nat × List Nat)

/-- A directory entry triple: key, start sector offset, byte length. -/
abbrev DirEntry := Nat × Nat × Nat

/-- Result of a directory lookup.  The C `FetchFilePos` returns the int 0 on
every failure; the distinct outcomes are distinguishable by the message it
prints.  `notFound` is the `dir[1] == 0` fall-through ("File does not exist"),
`err` covers the NULL-directory, seek/short-read and NUMFILES checks, and
fuel exhaustion of the model. -/
inductive FetchResult where
  | found (filePos len : Nat) : FetchResult
  | notFound : FetchResult
  | err : FetchResult
deriving DecidableEq

/-- Body of the entry scan, counting down the remaining entries `numFiles - i`
so that the recursion is structural; `left = 0` is exactly `i ≥ numFiles`. -/
def scanFrom (dir : List Nat) (id : Nat) : Nat → Nat → Nat
  | 0, i => i
  | left + 1, i =>
    if id > dir.getD (i * 3 + 0x40) 0 then scanFrom dir id left (i + 1) else i

/-- The entry scan of FetchFilePos (exp.c line 131, exc.c line 254):
`i = 0; while ((i < numFiles) && (id > dir[i * 3 + NUMFILELOC + 1])) i++;`
Word `i*3 + 0x40` of the node is the key of entry `i`. -/
def scanIdx (dir : List Nat) (id numFiles i : Nat) : Nat :=
  scanFrom dir id (numFiles - i) i

/-- Node loading for dialect P (exp.c, acbmp.c FetchFilePos): one fseek and
one fread of SECSIZE = 256 words, failing unless all 256 words are read. -/
def readNodeP (disk : Disk) (pos : Nat) : Option (List Nat) :=
  match disk.lookup pos with
  | none => none
  | some sec => if sec.length = 256 then some sec else none

/-- Node loading for dialect C (exc.c FetchFilePos lines 173-245, mapac.c
ReadDir lines 162-182): read one 64-word sector, then follow `dir[0]` (raw,
unmasked) up to three times, each time reading the next pointer word and then
63 payload words into logical words `64..126`, `127..189`, `190..252`. -/
def readNodeC (disk : Disk) (pos : Nat) : Option (List Nat) :=
  match disk.lookup pos with
  | none => none
  | some s1 =>
    if s1.length = 64 then
      let p2 := s1.getD 0 0
      if p2 = 0 then some s1 else
      match disk.lookup p2 with
      | none => none
      | some s2 =>
        if s2.length = 64 then
          let p3 := s2.getD 0 0
          let d2 := s1 ++ s2.drop 1
          if p3 = 0 then some d2 else
          match disk.lookup p3 with
          | none => none
          | some s3 =>
            if s3.length = 64 then
              let p4 := s3.getD 0 0
              let d3 := d2 ++ s3.drop 1
              if p4 = 0 then some d3 else
              match disk.lookup p4 with
              | none => none
              | some s4 =>
                if s4.length = 64 then some (d3 ++ s4.drop 1) else none
            else none
        else none
    else none

/-- The directory lookup loop shared verbatim by exp.c, acbmp.c and exc.c
FetchFilePos; the two dialects differ only in how a node's word array is
loaded, abstracted here as `rd`.  `fuel` bounds the number of iterations of
the C `while (1)` loop. -/
def fetchFilePosAux (rd : Nat → Option (List Nat)) : Nat → Nat → Nat → FetchResult
  | 0, _, _ => .err
  | fuel + 1, dirPos, id =>
    if dirPos = 0 then .err
    else
      match rd dirPos with
      | none => .err
      | some dir =>
        let numFiles := dir.getD 0x3F 0
        if numFiles ≥ 0x3F then .err
        else
          let i := scanIdx dir id numFiles 0
          if i < numFiles ∧ dir.getD (i * 3 + 0x40) 0 = id then
            .found (dir.getD (i * 3 + 0x41) 0) (dir.getD (i * 3 + 0x42) 0)
          else if dir.getD 1 0 = 0 then .notFound
          else fetchFilePosAux rd fuel (dir.getD (i + 1) 0) id

/-- FetchFilePos of exp.c (PORTAL dialect: 1024-byte directory sectors). -/
def fetchFilePos (disk : Disk) (fuel dirPos id : Nat) : FetchResult :=
  fetchFilePosAux (readNodeP disk) fuel dirPos id

/-- FetchFilePos of exc.c (CELL dialect: chained 256-byte directory sectors). -/
def fetchFilePosC (disk : Disk) (fuel dirPos id : Nat) : FetchResult :=
  fetchFilePosAux (readNodeC disk) fuel dirPos id

/-- FetchFilePos with the two caller-supplied output cells made explicit, as
in the C signature `FetchFilePos(FILE *, uint dirPos, uint id, uint *filePos,
uint *len)`.  The pair `out` holds the pointees on entry; the returned pair is
their value on exit.  On the not-found path the C code assigns the local
pointer variables (`filePos = 0; len = 0;`), not the pointees, so no failure
path writes through the pointers. -/
def fetchFilePosAuxOut (rd : Nat → Option (List Nat)) :
    Nat → Nat → Nat → Nat × Nat → Bool × (Nat × Nat)
  | 0, _, _, out => (false, out)
  | fuel + 1, dirPos, id, out =>
    if dirPos = 0 then (false, out)
    else
      match rd dirPos with
      | none => (false, out)
      | some dir =>
        let numFiles := dir.getD 0x3F 0
        if numFiles ≥ 0x3F then (false, out)
        else
          let i := scanIdx dir id numFiles 0
          if i < numFiles ∧ dir.getD (i * 3 + 0x40) 0 = id then
            (true, (dir.getD (i * 3 + 0x41) 0, dir.getD (i * 3 + 0x42) 0))
          else if dir.getD 1 0 = 0 then (false, out)
          else fetchFilePosAuxOut rd fuel (dir.getD (i + 1) 0) id out

/-- Little-endian byte sequence of a list of 32-bit words, as laid out in the
C `uint sec[SECSIZE]` buffer that FetchFile memcpys from. -/
def wordsLEBytes (ws : List Nat) : List Nat :=
  ws.flatMap fun w => [w % 256, w / 256 % 256, w / 65536 % 256, w / 16777216 % 256]

/-- The payload of a sector: everything after the next-pointer word,
`memcpy(buf, &sec[1], ...)`. -/
def payloadBytes (sec : List Nat) : List Nat :=
  wordsLEBytes (sec.drop 1)

/-- The `while (doChain)` body of FetchFile (exp.c lines 67-94, exc.c lines
128-155): read a sector of `secWords` words, mask the next pointer to its low
31 bits, copy either the whole payload or the remaining `len` bytes, and stop
exactly when the masked next pointer is 0.  `buf` accumulates the bytes
copied so far. -/
def fetchFileLoop (disk : Disk) (secWords : Nat) : Nat → Nat → Nat → List Nat → Option (List Nat)
  | 0, _, _, _ => none
  | fuel + 1, filePos, len, buf =>
    match disk.lookup filePos with
    | none => none
    | some sec =>
      if sec.length = secWords then
        let next := sec.getD 0 0 % 2 ^ 31
        if len > (secWords - 1) * 4 then
          let buf2 := buf ++ payloadBytes sec
          if next = 0 then some buf2
          else fetchFileLoop disk secWords fuel next (len - (secWords - 1) * 4) buf2
        else
          let buf2 := buf ++ (payloadBytes sec).take len
          if next = 0 then some buf2
          else fetchFileLoop disk secWords fuel next 0 buf2
      else none

/-- FetchFile: assemble a record of declared byte length `len` from the chain
of sectors starting at `filePos`.  `secWords` is SECSIZE in words: 256 for
PORTAL (exp.c, acbmp.c), 64 for CELL (exc.c).  Returns the bytes written to
the output buffer, or none on the error paths (NULL start pointer, failed
seek or short read). -/
def fetchFile (disk : Disk) (secWords fuel filePos len : Nat) : Option (List Nat) :=
  if filePos = 0 then none else fetchFileLoop disk secWords fuel filePos len []

/-- A sector chain as FetchFile consumes it: starting pointer `p`, each
sector found on disk with the declared size, linked through the low 31 bits
of its word 0, the chain ending exactly where the list does. -/
def isChainFrom (disk : Disk) (secWords : Nat) : Nat → List (List Nat) → Bool
  | p, [] => p = 0
  | p, s :: rest =>
    p ≠ 0 && disk.lookup p = some s && s.length = secWords &&
      isChainFrom disk secWords (s.getD 0 0 % 2 ^ 31) rest

/-- The entry triples stored in a reconstituted directory node: word 0x3F is
the entry count, entry `i` is the word triple at `0x40 + 3*i`. -/
def nodeEntries (dir : List Nat) : List DirEntry :=
  (List.range (dir.getD 0x3F 0)).map fun i =>
    (dir.getD (i * 3 + 0x40) 0, dir.getD (i * 3 + 0x41) 0, dir.getD (i * 3 + 0x42) 0)

/-- In-order entry list of the directory tree of height at most `h` rooted at
`pos`, nodes loaded through `rd`.  In a leaf (word 1 zero) the node entries
stand alone; otherwise child `i` is the subtree at word `i + 1` and the
traversal interleaves child 0, entry 0, child 1, ..., entry N-1, child N. -/
def treeEntriesG (rd : Nat → Option (List Nat)) : Nat → Nat → List DirEntry
  | 0, _ => []
  | h + 1, pos =>
    match rd pos with
    | none => []
    | some dir =>
      if dir.getD 1 0 = 0 then nodeEntries dir
      else
        let n := dir.getD 0x3F 0
        ((List.range n).flatMap fun i =>
          treeEntriesG rd h (dir.getD (i + 1) 0) ++
            [(dir.getD (i * 3 + 0x40) 0, dir.getD (i * 3 + 0x41) 0, dir.getD (i * 3 + 0x42) 0)]) ++
          treeEntriesG rd h (dir.getD (n + 1) 0)

/-- Wellformedness of an on-disk directory tree of height at most `h` at
`pos`: the node loads, its entry count is below 0x3F, and unless it is a leaf
(word 1 zero) all of its N+1 child subtrees at words 1..N+1 are wellformed. -/
def wfTreeG (rd : Nat → Option (List Nat)) : Nat → Nat → Bool
  | 0, _ => false
  | h + 1, pos =>
    pos ≠ 0 &&
      match rd pos with
      | none => false
      | some dir =>
        dir.getD 0x3F 0 < 0x3F &&
          (if dir.getD 1 0 = 0 then true
           else (List.range (dir.getD 0x3F 0 + 1)).all fun i =>
             wfTreeG rd h (dir.getD (i + 1) 0))

/-- The probing strategy of acbmp.c main (there over the low 16 bits;
the spec contract ranges over every low-24-bit value): probe each key
`t * 2^24 + i` in ascending order of `i` through the directory lookup and
collect the hits. -/
def probeHits (rd : Nat → Option (List Nat)) (fuel pos t : Nat) : List DirEntry :=
  (List.range (2 ^ 24)).filterMap fun i =>
    match fetchFilePosAux rd fuel pos (t * 2 ^ 24 + i) with
    | .found o l => some (t * 2 ^ 24 + i, o, l)
    | _ => none

/-- Build a synthetic dialect-P directory sector: word 0 is the (unused)
next-pointer slot, words 1..62 the child pointers, word 0x3F the entry
count, words 0x40.. the entry triples, zero padded to 256 words. -/
def mkDirSector (cs : List Nat) (es : List DirEntry) : List Nat :=
  let base := 0 :: (cs ++ List.replicate (62 - cs.length) 0) ++ [es.length] ++
    es.flatMap fun e => [e.1, e.2.1, e.2.2]
  base ++ List.replicate (256 - base.length) 0

/-- A cell of the aggregated 2041 x 2041 land map (mapac.c `landData`). -/
structure LandCell where
  type : Nat
  z : Nat
  used : Bool
deriving DecidableEq

/-- The land map, indexed as `land[row][col]`. -/
abbrev LandMap := Nat × Nat → LandCell

/-- Point update of the land map (the three assignments at the bottom of the
writeLandData loop body). -/
def setCell (m : LandMap) (r c : Nat) (cell : LandCell) : LandMap :=
  fun p => if p = (r, c) then cell else m p

/-- writeLandData (mapac.c lines 120-151) over the raw 256-byte record
sector `sec`: `startX = blockX*8`, `startY = LANDSIZE - blockY*8 - 1`, type
codes are little-endian ushorts from byte 12, height codes bytes from byte
174, sample `(x, y)` written to `land[startY - y][startX + x]` with its used
flag set. -/
def writeLandData (sec : List Nat) (blockX blockY : Nat) (land : LandMap) : LandMap :=
  let startX := blockX * 8
  let startY := 2041 - blockY * 8 - 1
  (List.range 9).foldl (fun m x =>
    (List.range 9).foldl (fun m2 y =>
      setCell m2 (startY - y) (startX + x)
        { type := sec.getD (12 + 2 * (x * 9 + y)) 0 + 256 * sec.getD (12 + 2 * (x * 9 + y) + 1) 0
          z := sec.getD (174 + (x * 9 + y)) 0
          used := true }) m) land

/-- Little-endian 32-bit word at word index `j` of a byte buffer. -/
def wordAtB (buf : List Nat) (j : Nat) : Nat :=
  buf.getD (4 * j) 0 + 256 * buf.getD (4 * j + 1) 0 + 65536 * buf.getD (4 * j + 2) 0 +
    16777216 * buf.getD (4 * j + 3) 0

/-- The landblock dispatch of ReadDir (mapac.c line 196):
`writeLandData((uchar *)sec, sec[1] >> 24, (sec[1] & 0x00FF0000) >> 16)` —
the block indices are decoded from the id word stored in the record. -/
def processLandblock (sec : List Nat) (land : LandMap) : LandMap :=
  writeLandData sec (wordAtB sec 1 / 2 ^ 24) (wordAtB sec 1 / 2 ^ 16 % 2 ^ 8) land

/-- Little-endian byte quadruple of a 32-bit word. -/
def toLE4 (w : Nat) : List Nat :=
  [w % 256, w / 256 % 256, w / 65536 % 256, w / 16777216 % 256]

/-- The pointer bump of acbmp.c line 196:
`palPtrs += imageH * imageW / sizeof(uint) + 4;` — the word index of the
first palette-reference key relative to the record start. -/
def acbmpPalIdx (imageW imageH : Nat) : Nat :=
  imageH * imageW / 4 + 4

/-- How acbmp.c locates the palette key of a palettized record: read width
and height from header words 2 and 3, then the word `acbmpPalIdx` words in
(acbmp.c lines 192-201, using only `palPtrs[0]`). -/
def acbmpPalKey (buf : List Nat) : Nat :=
  wordAtB buf (acbmpPalIdx (wordAtB buf 2) (wordAtB buf 3))

/-- Synthetic record sector for tests: links to offset 16. -/
def wSec1 : List Nat := 16 :: List.range 63

/-- Synthetic record sector for tests: terminates the chain. -/
def wSec2 : List Nat := 0 :: List.map (fun k => k + 100) (List.range 63)

/-- Synthetic two-sector CELL archive holding one 500-byte record at 8. -/
def wDiskRec : Disk := [(8, wSec1), (16, wSec2)]

/-- Synthetic one-sector CELL archive whose chain at 8 terminates at once. -/
def wDiskShort : Disk := [(8, 0 :: List.range 63)]

/-- Record sector whose terminator word carries the reserved high bit. -/
def wSecHB : List Nat := 2 ^ 31 :: List.range 63

/-- Archive whose single record chain ends with a high-bit terminator. -/
def wDiskHB1 : Disk := [(8, wSecHB)]

/-- Record sector whose link to offset 16 carries the reserved high bit. -/
def wSecHB1 : List Nat := (2 ^ 31 + 16) :: List.range 63

/-- Archive with a two-sector record chain linked through a high-bit word. -/
def wDiskHB2 : Disk := [(8, wSecHB1), (16, wSec2)]

/-- CELL directory sector: chain word with the high bit set on the link to
16, no children, one entry (stored in the continuation sector). -/
def cSec1bad : List Nat := (2 ^ 31 + 16) :: (List.replicate 62 0 ++ [1])

/-- CELL directory sector: same node but with a clean link word. -/
def cSec1good : List Nat := 16 :: (List.replicate 62 0 ++ [1])

/-- CELL directory continuation sector holding the entry (42, 5, 6). -/
def cSec2 : List Nat := [0, 42, 5, 6] ++ List.replicate 60 0

/-- CELL archive whose directory chain word has the high bit set. -/
def wDiskC6a : Disk := [(8, cSec1bad), (16, cSec2)]

/-- The same CELL archive with the high bit cleared on the chain word. -/
def wDiskC6b : Disk := [(8, cSec1good), (16, cSec2)]

/-- A contiguous 253-word logical directory node; word 0 is the chain link
to 16. -/
def wNodeW : List Nat := 16 :: List.map (fun k => k + 300) (List.range 252)

/-- Dispersal of wNodeW, sector 1: logical words 0..63. -/
def wNS1 : List Nat := wNodeW.take 64

/-- Dispersal of wNodeW, sector 2: link to 32, logical words 64..126. -/
def wNS2 : List Nat := 32 :: (wNodeW.drop 64).take 63

/-- Dispersal of wNodeW, sector 3: link to 48, logical words 127..189. -/
def wNS3 : List Nat := 48 :: (wNodeW.drop 127).take 63

/-- Dispersal of wNodeW, sector 4: logical words 190..252. -/
def wNS4 : List Nat := 7 :: (wNodeW.drop 190).take 63

/-- CELL archive storing wNodeW across four linked sectors. -/
def wDiskNode : Disk := [(8, wNS1), (16, wNS2), (32, wNS3), (48, wNS4)]

/-- Synthetic PORTAL directory root: two children, one entry (100, 5, 6). -/
def wRoot : List Nat := mkDirSector [16, 24] [(100, 5, 6)]

/-- Synthetic PORTAL directory leaf holding (50, 1, 2). -/
def wLeafA : List Nat := mkDirSector [] [(50, 1, 2)]

/-- Synthetic PORTAL directory leaf holding (200, 3, 4). -/
def wLeafB : List Nat := mkDirSector [] [(200, 3, 4)]

/-- Synthetic PORTAL archive: a two-level directory B-tree rooted at 8. -/
def wDiskP : Disk := [(8, wRoot), (16, wLeafA), (24, wLeafB)]

/-- Synthetic palettized graphic record: header (id 170, image type 2,
width 1, height 5), five index bytes, three pad bytes up to the word
boundary, then the first palette-reference key 0xDEADBEEF. -/
def wPalBuf : List Nat :=
  toLE4 170 ++ toLE4 2 ++ toLE4 1 ++ toLE4 5 ++ [1, 2, 3, 4, 5] ++ [0, 0, 0] ++
    toLE4 3735928559


theorem scanFrom_bounds (dir : List Nat) (id : Nat) :
    ∀ left i, i ≤ scanFrom dir id left i ∧ scanFrom dir id left i ≤ i + left := by
  intro left
  induction left with
  | zero => intro i; simp [scanFrom]
  | succ left ih =>
    intro i
    simp only [scanFrom]
    by_cases hc : id > dir.getD (i * 3 + 0x40) 0
    · rw [if_pos hc]
      have := ih (i + 1)
      omega
    · rw [if_neg hc]
      omega

theorem scanFrom_gt (dir : List Nat) (id : Nat) :
    ∀ left i j, i ≤ j → j < scanFrom dir id left i →
      id > dir.getD (j * 3 + 0x40) 0 := by
  intro left
  induction left with
  | zero =>
    intro i j hij hj
    simp only [scanFrom] at hj
    omega
  | succ left ih =>
    intro i j hij hj
    simp only [scanFrom] at hj
    by_cases hc : id > dir.getD (i * 3 + 0x40) 0
    · rw [if_pos hc] at hj
      rcases Nat.eq_or_lt_of_le hij with h | h
      · subst h; exact hc
      · exact ih (i + 1) j h hj
    · rw [if_neg hc] at hj
      omega

theorem scanFrom_stop (dir : List Nat) (id : Nat) :
    ∀ left i, scanFrom dir id left i < i + left →
      id ≤ dir.getD ((scanFrom dir id left i) * 3 + 0x40) 0 := by
  intro left
  induction left with
  | zero =>
    intro i h
    simp only [scanFrom] at h
    omega
  | succ left ih =>
    intro i h
    simp only [scanFrom] at h ⊢
    by_cases hc : id > dir.getD (i * 3 + 0x40) 0
    · rw [if_pos hc] at h ⊢
      exact ih (i + 1) (by omega)
    · rw [if_neg hc] at h ⊢
      omega

theorem scanIdx_le (dir : List Nat) (id n : Nat) : scanIdx dir id n 0 ≤ n := by
  have := scanFrom_bounds dir id (n - 0) 0
  simp only [scanIdx]
  omega

theorem scanIdx_gt_left (dir : List Nat) (id n : Nat) :
    ∀ j, j < scanIdx dir id n 0 → id > dir.getD (j * 3 + 0x40) 0 := by
  intro j hj
  exact scanFrom_gt dir id (n - 0) 0 j (Nat.zero_le j) hj

theorem scanIdx_stop (dir : List Nat) (id n : Nat)
    (h : scanIdx dir id n 0 < n) :
    id ≤ dir.getD ((scanIdx dir id n 0) * 3 + 0x40) 0 := by
  apply scanFrom_stop dir id (n - 0) 0
  simpa [scanIdx] using h

theorem wordsLEBytes_length (ws : List Nat) : (wordsLEBytes ws).length = 4 * ws.length := by
  induction ws with
  | nil => rfl
  | cons w ws ih =>
    simp only [wordsLEBytes, List.flatMap_cons] at *
    simp [ih]
    omega

theorem payloadBytes_length (sec : List Nat) (secWords : Nat)
    (h : sec.length = secWords) :
    (payloadBytes sec).length = (secWords - 1) * 4 := by
  simp [payloadBytes, wordsLEBytes_length, h]
  omega

theorem fetchFileLoop_chain (disk : Disk) (secWords : Nat) (hsw : 2 ≤ secWords) :
    ∀ (chain : List (List Nat)) (start len fuel : Nat) (buf : List Nat),
      isChainFrom disk secWords start chain = true →
      chain.length ≤ fuel →
      (chain.length - 1) * ((secWords - 1) * 4) < len →
      len ≤ chain.length * ((secWords - 1) * 4) →
      fetchFileLoop disk secWords fuel start len buf =
        some (buf ++ (chain.map payloadBytes).flatten.take len) := by
  intro chain
  induction chain with
  | nil =>
    intro start len fuel buf _ _ h1 h2
    simp only [List.length_nil] at h1 h2
    omega
  | cons s rest ih =>
    intro start len fuel buf hchain hfuel h1 h2
    simp only [isChainFrom, Bool.and_eq_true, decide_eq_true_eq] at hchain
    obtain ⟨⟨⟨hs0, hlook⟩, hslen⟩, hrest⟩ := hchain
    set P := (secWords - 1) * 4 with hP
    have hPpos : 0 < P := by omega
    have hplen : (payloadBytes s).length = P := payloadBytes_length s secWords hslen
    simp only [List.length_cons] at h1 h2 hfuel
    match fuel, hfuel with
    | fuel + 1, hfuel =>
    simp only [fetchFileLoop, hlook]
    rw [if_pos hslen]
    cases rest with
    | nil =>
      have hnext : s.getD 0 0 % 2 ^ 31 = 0 := by
        simpa [isChainFrom] using hrest
      simp only [List.length_nil] at h1 h2
      have hle : ¬ len > P := by
        rw [show (0 + 1) * P = P by ring] at h2
        omega
      rw [if_neg hle, if_pos hnext]
      simp

    | cons s2 rest2 =>
      have hnext : ¬ (s.getD 0 0 % 2 ^ 31 = 0) := by
        simp only [isChainFrom, Bool.and_eq_true, decide_eq_true_eq] at hrest
        exact hrest.1.1.1
      simp only [List.length_cons] at h1 h2 hfuel
      have e0 : (rest2.length + 1) * P = rest2.length * P + P := Nat.succ_mul _ _
      have e1 : (rest2.length + 1 + 1) * P = rest2.length * P + P + P := by
        rw [Nat.succ_mul, e0]
      have h1s : rest2.length * P + P < len := by
        rw [show rest2.length + 1 + 1 - 1 = rest2.length + 1 by omega, e0] at h1
        exact h1
      have h2s : len ≤ rest2.length * P + P + P := by
        rw [e1] at h2
        exact h2
      have hgt : len > P := by omega
      rw [if_pos hgt, if_neg hnext]
      rw [ih (s.getD 0 0 % 2 ^ 31) (len - P) fuel (buf ++ payloadBytes s) hrest
        (by simp only [List.length_cons]; omega)
        (by simp only [List.length_cons, Nat.add_sub_cancel]; omega)
        (by simp only [List.length_cons, e0]; omega)]
      have hlelen : (payloadBytes s).length ≤ len := by omega
      have hta : (payloadBytes s ++ ((s2 :: rest2).map payloadBytes).flatten).take len
          = payloadBytes s ++ (((s2 :: rest2).map payloadBytes).flatten).take (len - P) := by
        rw [List.take_append_eq_append_take, List.take_of_length_le hlelen, hplen]
      simp only [List.map_cons, List.flatten_cons] at hta ⊢
      rw [hta, List.append_assoc]

/-- Claim C2 (amended): for every declared record length L ≥ 1 and every
sector chain of exactly k = ceil(L / (sector_size − 4)) sectors whose last
next pointer masks to 0, FetchFile succeeds and its output buffer is exactly
the concatenation of the k sectors' payload bytes truncated to L.  (For
L = 0 the chain is empty and the start pointer null; see the
counterexample: FetchFile then fails with the NullPointer error instead of
returning an empty buffer.) -/
theorem record_chain_fidelity (disk : Disk) (secWords fuel start len : Nat)
    (chain : List (List Nat))
    (hsw : 2 ≤ secWords) (hlen : 1 ≤ len)
    (hchain : isChainFrom disk secWords start chain = true)
    (hk : chain.length = (len + (secWords - 1) * 4 - 1) / ((secWords - 1) * 4))
    (hfuel : chain.length ≤ fuel) :
    fetchFile disk secWords fuel start len =
      some ((chain.map payloadBytes).flatten.take len) := by
  set P := (secWords - 1) * 4 with hP
  have hPpos : 0 < P := by omega
  have hdm := Nat.div_add_mod (len + P - 1) P
  have hr : (len + P - 1) % P < P := Nat.mod_lt _ hPpos
  rw [← hk] at hdm
  cases chain with
  | nil =>
    simp only [List.length_nil, Nat.mul_zero, Nat.zero_add] at hdm
    omega
  | cons s rest =>
    rw [Nat.mul_comm P ((s :: rest).length)] at hdm
    have hsm : ((s :: rest).length - 1) * P = (s :: rest).length * P - P :=
      Nat.sub_one_mul _ _
    have hg1 : ((s :: rest).length - 1) * P < len := by omega
    have hg2 : len ≤ (s :: rest).length * P := by omega
    have hs0 : start ≠ 0 := by
      simp only [isChainFrom, Bool.and_eq_true, decide_eq_true_eq] at hchain
      exact hchain.1.1.1
    rw [fetchFile, if_neg hs0]
    have := fetchFileLoop_chain disk secWords hsw (s :: rest) start len fuel []
      hchain hfuel hg1 hg2
    simpa using this

/-- Claim C2 counterexample: for L = 0 the chain has k = 0 sectors, so the
start pointer is the null terminator itself; it is a valid (empty) chain,
yet FetchFile takes its NULL-file-pointer error path and returns failure,
not success with an empty buffer. -/
theorem record_chain_len_zero_fails :
    isChainFrom ([] : Disk) 64 0 [] = true ∧
      fetchFile ([] : Disk) 64 3 0 0 = none ∧
      fetchFile ([] : Disk) 64 3 0 0 ≠ some [] := by
  refine ⟨by decide, by decide, by decide⟩

theorem record_chain_fidelity_witness :
    isChainFrom wDiskRec 64 8 [wSec1, wSec2] = true ∧
      fetchFile wDiskRec 64 2 8 500 =
        some (([wSec1, wSec2].map payloadBytes).flatten.take 500) :=
  ⟨by decide, record_chain_fidelity wDiskRec 64 2 8 500 [wSec1, wSec2]
    (by decide) (by decide) (by decide) (by decide) (by decide)⟩

theorem chain_flatten_length (disk : Disk) (secWords : Nat) :
    ∀ (chain : List (List Nat)) (start : Nat),
      isChainFrom disk secWords start chain = true →
      ((chain.map payloadBytes).flatten).length =
        chain.length * ((secWords - 1) * 4) := by
  intro chain
  induction chain with
  | nil => intro start _; simp
  | cons s rest ih =>
    intro start hchain
    simp only [isChainFrom, Bool.and_eq_true, decide_eq_true_eq] at hchain
    obtain ⟨⟨⟨hs0, hlook⟩, hslen⟩, hrest⟩ := hchain
    have hplen := payloadBytes_length s secWords hslen
    have htl := ih (s.getD 0 0 % 2 ^ 31) (by
      simpa [isChainFrom, Bool.and_eq_true, decide_eq_true_eq] using hrest)
    simp only [List.map_cons, List.flatten_cons, List.length_append, hplen, htl,
      List.length_cons, Nat.succ_mul]
    omega

theorem fetchFileLoop_partial (disk : Disk) (secWords : Nat) (hsw : 2 ≤ secWords) :
    ∀ (chain : List (List Nat)) (start len fuel : Nat) (buf : List Nat),
      isChainFrom disk secWords start chain = true →
      chain ≠ [] →
      chain.length ≤ fuel →
      chain.length * ((secWords - 1) * 4) < len →
      fetchFileLoop disk secWords fuel start len buf =
        some (buf ++ (chain.map payloadBytes).flatten) := by
  intro chain
  induction chain with
  | nil => intro start len fuel buf _ hne _ _; exact absurd rfl hne
  | cons s rest ih =>
    intro start len fuel buf hchain _ hfuel hshort
    simp only [isChainFrom, Bool.and_eq_true, decide_eq_true_eq] at hchain
    obtain ⟨⟨⟨hs0, hlook⟩, hslen⟩, hrest⟩ := hchain
    set P := (secWords - 1) * 4 with hP
    have hPpos : 0 < P := by omega
    have hplen : (payloadBytes s).length = P := payloadBytes_length s secWords hslen
    simp only [List.length_cons] at hshort hfuel
    have e0 : (rest.length + 1) * P = rest.length * P + P := Nat.succ_mul _ _
    match fuel, hfuel with
    | fuel + 1, hfuel =>
    simp only [fetchFileLoop, hlook]
    rw [if_pos hslen]
    have hgt : len > P := by omega
    rw [if_pos hgt]
    cases rest with
    | nil =>
      have hnext : s.getD 0 0 % 2 ^ 31 = 0 := by
        simpa [isChainFrom] using hrest
      rw [if_pos hnext]
      simp
    | cons s2 rest2 =>
      have hnext : ¬ (s.getD 0 0 % 2 ^ 31 = 0) := by
        simp only [isChainFrom, Bool.and_eq_true, decide_eq_true_eq] at hrest
        exact hrest.1.1.1
      rw [if_neg hnext]
      simp only [List.length_cons] at e0 hshort hfuel
      have e1 : (rest2.length + 1) * P = rest2.length * P + P := Nat.succ_mul _ _
      rw [ih (s.getD 0 0 % 2 ^ 31) (len - P) fuel (buf ++ payloadBytes s) hrest
        (by simp)
        (by simp only [List.length_cons]; omega)
        (by simp only [List.length_cons, e1]; omega)]
      simp

/-- Claim C4 (amended): if the chain's masked next offset becomes 0 before
the declared L bytes have been copied, FetchFile does NOT fail: it stops and
returns success with the partially filled buffer, holding only the payload
bytes of the sectors actually seen (fewer than L).  The NullPointer failure
occurs only for a null start pointer. -/
theorem early_null_returns_partial (disk : Disk) (secWords fuel start len : Nat)
    (chain : List (List Nat))
    (hsw : 2 ≤ secWords)
    (hchain : isChainFrom disk secWords start chain = true)
    (hne : chain ≠ [])
    (hshort : chain.length * ((secWords - 1) * 4) < len)
    (hfuel : chain.length ≤ fuel) :
    fetchFile disk secWords fuel start len =
      some ((chain.map payloadBytes).flatten) ∧
    ((chain.map payloadBytes).flatten).length < len := by
  have hflat := chain_flatten_length disk secWords chain start hchain
  have hs0 : start ≠ 0 := by
    cases chain with
    | nil => exact absurd rfl hne
    | cons s rest =>
      simp only [isChainFrom, Bool.and_eq_true, decide_eq_true_eq] at hchain
      exact hchain.1.1.1
  refine ⟨?_, by omega⟩
  rw [fetchFile, if_neg hs0]
  have := fetchFileLoop_partial disk secWords hsw chain start len fuel []
    hchain hne hfuel hshort
  simpa using this

set_option maxRecDepth 8000 in
/-- Claim C4 counterexample: a record declared 300 bytes long whose chain is
a single CELL sector with next pointer 0 makes FetchFile return success with
a 252-byte buffer; the claim predicts a NullPointer failure instead. -/
theorem early_null_no_failure :
    fetchFile wDiskShort 64 3 8 300 ≠ none ∧
      (fetchFile wDiskShort 64 3 8 300).map List.length = some 252 := by
  refine ⟨by decide, by decide⟩

set_option maxRecDepth 8000 in
theorem early_null_returns_partial_witness :
    isChainFrom wDiskShort 64 8 [0 :: List.range 63] = true ∧
      (fetchFile wDiskShort 64 3 8 300 =
          some (([0 :: List.range 63].map payloadBytes).flatten) ∧
        (([0 :: List.range 63].map payloadBytes).flatten).length < 300) :=
  ⟨by decide, early_null_returns_partial wDiskShort 64 3 8 300 [0 :: List.range 63]
    (by decide) (by decide) (by decide) (by decide) (by decide)⟩

/-- Claim C6 (amended): in record sector chains, FetchFile masks every
consumed next offset to its low 31 bits, so a terminator or a link whose
high bit is set is handled exactly as its masked value; in directory-node
sector chains (dialect C) the next pointer is consumed raw and unmasked, so
a set high bit reaches the seek: with the successor sector stored at the
masked offset only, the node read fails. -/
theorem high_bit_mask_fidelity :
    (∀ (disk : Disk) (secWords fuel p len : Nat) (s : List Nat),
      2 ≤ secWords → p ≠ 0 → disk.lookup p = some s → s.length = secWords →
      s.getD 0 0 = 2 ^ 31 → 1 ≤ len → len ≤ (secWords - 1) * 4 → 1 ≤ fuel →
      fetchFile disk secWords fuel p len = some ((payloadBytes s).take len)) ∧
    (∀ (disk : Disk) (secWords fuel p q len : Nat) (s1 s2 : List Nat),
      2 ≤ secWords → p ≠ 0 → disk.lookup p = some s1 → s1.length = secWords →
      s1.getD 0 0 = 2 ^ 31 + q → 0 < q → q < 2 ^ 31 →
      disk.lookup q = some s2 → s2.length = secWords → s2.getD 0 0 = 0 →
      (secWords - 1) * 4 < len → len ≤ 2 * ((secWords - 1) * 4) → 2 ≤ fuel →
      fetchFile disk secWords fuel p len =
        some ((payloadBytes s1 ++ payloadBytes s2).take len)) ∧
    (∀ (disk : Disk) (pos q : Nat) (s1 s2 : List Nat),
      disk.lookup pos = some s1 → s1.length = 64 →
      s1.getD 0 0 = 2 ^ 31 + q → 0 < q → q < 2 ^ 31 →
      disk.lookup (2 ^ 31 + q) = none →
      disk.lookup q = some s2 → s2.length = 64 → s2.getD 0 0 = 0 →
      readNodeC disk pos = none) := by
  refine ⟨?_, ?_, ?_⟩
  · intro disk secWords fuel p len s hsw hp hlook hslen hw hlen hle hfuel
    have hchain : isChainFrom disk secWords p [s] = true := by
      simp only [isChainFrom, Bool.and_eq_true, decide_eq_true_eq]
      refine ⟨⟨⟨hp, hlook⟩, hslen⟩, ?_⟩
      show s.getD 0 0 % 2 ^ 31 = 0
      rw [hw]
      exact Nat.mod_self _
    rw [fetchFile, if_neg hp]
    have := fetchFileLoop_chain disk secWords hsw [s] p len fuel [] hchain
      (by simpa using hfuel) (by simpa using hlen) (by simpa using hle)
    simpa using this
  · intro disk secWords fuel p q len s1 s2 hsw hp hlook1 hs1len hw1 hq0 hqlt
      hlook2 hs2len hw2 hlo hhi hfuel
    have hmask : (2 ^ 31 + q) % 2 ^ 31 = q := by
      rw [Nat.add_mod_left]
      exact Nat.mod_eq_of_lt hqlt
    have hchain : isChainFrom disk secWords p [s1, s2] = true := by
      simp only [isChainFrom, Bool.and_eq_true, decide_eq_true_eq]
      refine ⟨⟨⟨hp, hlook1⟩, hs1len⟩, ⟨⟨⟨?_, ?_⟩, hs2len⟩, ?_⟩⟩
      · rw [hw1, hmask]; omega
      · rw [hw1, hmask]; exact hlook2
      · show s2.getD 0 0 % 2 ^ 31 = 0
        rw [hw2]
        exact Nat.zero_mod _
    rw [fetchFile, if_neg hp]
    have := fetchFileLoop_chain disk secWords hsw [s1, s2] p len fuel [] hchain
      (by simpa using hfuel)
      (by simpa using hlo)
      (by simpa [Nat.two_mul] using hhi)
    simpa using this
  · intro disk pos q s1 s2 hlook1 hs1len hw1 hq0 hqlt hnone hlook2 hs2len hw2
    have hne : (2 : Nat) ^ 31 + q ≠ 0 := by omega
    simp only [readNodeC, hlook1]
    rw [if_pos hs1len, hw1]
    rw [if_neg hne]
    rw [hnone]

/-- Claim C6 counterexample: the dialect-C directory reader consumes the
chain word raw.  Two archives identical except for the high bit of the
root sector's chain word: with the bit clear the lookup finds key 42; with
the bit set (successor still stored at the masked offset 16) the lookup
fails, so the offset consumed was not masked. -/
theorem dir_chain_unmasked :
    fetchFilePosC wDiskC6b 2 8 42 = .found 5 6 ∧
      fetchFilePosC wDiskC6a 2 8 42 = .err := by
  refine ⟨by decide, by decide⟩

set_option maxRecDepth 8000 in
theorem high_bit_mask_fidelity_witness :
    fetchFile wDiskHB1 64 1 8 100 = some ((payloadBytes wSecHB).take 100) ∧
      fetchFile wDiskHB2 64 2 8 300 =
        some ((payloadBytes wSecHB1 ++ payloadBytes wSec2).take 300) ∧
      readNodeC wDiskC6a 8 = none :=
  ⟨high_bit_mask_fidelity.1 wDiskHB1 64 1 8 100 wSecHB (by decide) (by decide)
      (by decide) (by decide) (by decide) (by decide) (by decide) (by decide),
    high_bit_mask_fidelity.2.1 wDiskHB2 64 2 8 16 300 wSecHB1 wSec2 (by decide)
      (by decide) (by decide) (by decide) (by decide) (by decide) (by decide)
      (by decide) (by decide) (by decide) (by decide) (by decide) (by decide),
    high_bit_mask_fidelity.2.2 wDiskC6a 8 16 cSec1bad cSec2 (by decide)
      (by decide) (by decide) (by decide) (by decide) (by decide) (by decide)
      (by decide) (by decide)⟩

/-- Claim C5: a CELL directory node stored across 1, 2, 3, or 4 sectors
linked by their next-pointer words reconstitutes to the same logical word
array as if the node were written contiguously — sector 1 supplies logical
words 0..63 verbatim, and sectors 2, 3, 4 each drop their leading
next-pointer word and supply words 64..126, 127..189, 190..252; a chain
terminating early leaves the remaining logical words unread (the entry
count accounts for them). -/
theorem node_reconstitution (disk : Disk) (W : List Nat) (hW : W.length = 253) :
    (∀ o1 s1, disk.lookup o1 = some s1 → s1 = W.take 64 →
      s1.getD 0 0 = 0 →
      readNodeC disk o1 = some (W.take 64)) ∧
    (∀ o1 o2 s1 s2, disk.lookup o1 = some s1 → s1 = W.take 64 →
      s1.getD 0 0 = o2 → o2 ≠ 0 →
      disk.lookup o2 = some s2 → s2.length = 64 →
      s2.drop 1 = (W.drop 64).take 63 → s2.getD 0 0 = 0 →
      readNodeC disk o1 = some (W.take 127)) ∧
    (∀ o1 o2 o3 s1 s2 s3, disk.lookup o1 = some s1 → s1 = W.take 64 →
      s1.getD 0 0 = o2 → o2 ≠ 0 →
      disk.lookup o2 = some s2 → s2.length = 64 →
      s2.drop 1 = (W.drop 64).take 63 → s2.getD 0 0 = o3 → o3 ≠ 0 →
      disk.lookup o3 = some s3 → s3.length = 64 →
      s3.drop 1 = (W.drop 127).take 63 → s3.getD 0 0 = 0 →
      readNodeC disk o1 = some (W.take 190)) ∧
    (∀ o1 o2 o3 o4 s1 s2 s3 s4, disk.lookup o1 = some s1 → s1 = W.take 64 →
      s1.getD 0 0 = o2 → o2 ≠ 0 →
      disk.lookup o2 = some s2 → s2.length = 64 →
      s2.drop 1 = (W.drop 64).take 63 → s2.getD 0 0 = o3 → o3 ≠ 0 →
      disk.lookup o3 = some s3 → s3.length = 64 →
      s3.drop 1 = (W.drop 127).take 63 → s3.getD 0 0 = o4 → o4 ≠ 0 →
      disk.lookup o4 = some s4 → s4.length = 64 →
      s4.drop 1 = (W.drop 190).take 63 →
      readNodeC disk o1 = some W) := by
  have hlen1 : (W.take 64).length = 64 := by
    rw [List.length_take, hW]
    omega
  have ht127 : W.take 127 = W.take 64 ++ (W.drop 64).take 63 := by
    rw [show (127 : Nat) = 64 + 63 by norm_num, List.take_add]
  have ht190 : W.take 190 = W.take 127 ++ (W.drop 127).take 63 := by
    rw [show (190 : Nat) = 127 + 63 by norm_num, List.take_add]
  have ht253 : W = W.take 190 ++ (W.drop 190).take 63 := by
    conv_lhs => rw [← List.take_of_length_le (show W.length ≤ 253 by omega)]
    rw [show (253 : Nat) = 190 + 63 by norm_num, List.take_add]
  refine ⟨?_, ?_, ?_, ?_⟩
  · intro o1 s1 hl1 hs1 hz
    subst hs1
    simp only [readNodeC, hl1]
    rw [if_pos hlen1, hz, if_pos rfl]
  · intro o1 o2 s1 s2 hl1 hs1 hw1 ho2 hl2 hlen2 hd2 hz2
    subst hs1
    simp only [readNodeC, hl1]
    rw [if_pos hlen1, hw1, if_neg ho2]
    simp only [hl2]
    rw [if_pos hlen2, hz2, if_pos rfl, hd2, ht127]
  · intro o1 o2 o3 s1 s2 s3 hl1 hs1 hw1 ho2 hl2 hlen2 hd2 hw2 ho3 hl3 hlen3
      hd3 hz3
    subst hs1
    simp only [readNodeC, hl1]
    rw [if_pos hlen1, hw1, if_neg ho2]
    simp only [hl2]
    rw [if_pos hlen2, hw2, if_neg ho3]
    simp only [hl3]
    rw [if_pos hlen3, hz3, if_pos rfl, hd2, hd3, ht190, ht127]
  · intro o1 o2 o3 o4 s1 s2 s3 s4 hl1 hs1 hw1 ho2 hl2 hlen2 hd2 hw2 ho3 hl3
      hlen3 hd3 hw3 ho4 hl4 hlen4 hd4
    subst hs1
    simp only [readNodeC, hl1]
    rw [if_pos hlen1, hw1, if_neg ho2]
    simp only [hl2]
    rw [if_pos hlen2, hw2, if_neg ho3]
    simp only [hl3]
    rw [if_pos hlen3, hw3, if_neg ho4]
    simp only [hl4]
    rw [if_pos hlen4, hd2, hd3, hd4]
    conv_rhs => rw [ht253, ht190, ht127]

set_option maxRecDepth 8000 in
theorem node_reconstitution_witness :
    readNodeC wDiskNode 8 = some wNodeW :=
  (node_reconstitution wDiskNode wNodeW (by decide)).2.2.2 8 16 32 48 wNS1 wNS2
    wNS3 wNS4 (by decide) (by decide) (by decide) (by decide) (by decide)
    (by decide) (by decide) (by decide) (by decide) (by decide) (by decide)
    (by decide) (by decide) (by decide) (by decide) (by decide) (by decide)

theorem entries_key_unique (E : List DirEntry)
    (h : E.Pairwise (fun a b : DirEntry => a.1 < b.1)) :
    ∀ x ∈ E, ∀ y ∈ E, x.1 = y.1 → x = y := by
  induction E with
  | nil => intro x hx; simp at hx
  | cons a E ih =>
    rw [List.pairwise_cons] at h
    intro x hx y hy hxy
    rcases List.mem_cons.mp hx with hxa | hx2
    · rcases List.mem_cons.mp hy with hya | hy2
      · rw [hxa, hya]
      · subst hxa
        have := h.1 y hy2
        omega
    · rcases List.mem_cons.mp hy with hya | hy2
      · subst hya
        have := h.1 x hx2
        omega
      · exact ih h.2 x hx2 y hy2 hxy

theorem blocks_pairwise (B : Nat → List Nat) (m : Nat)
    (hP : ((List.range m).flatMap B).Pairwise (· < ·)) :
    (∀ j, j < m → (B j).Pairwise (· < ·)) ∧
    (∀ s t, s < t → t < m → ∀ x ∈ B s, ∀ y ∈ B t, x < y) := by
  rw [List.flatMap_def, List.pairwise_flatten] at hP
  obtain ⟨hin, hout⟩ := hP
  constructor
  · intro j hj
    exact hin (B j) (List.mem_map.mpr ⟨j, List.mem_range.mpr hj, rfl⟩)
  · rw [List.pairwise_map, List.pairwise_iff_getElem] at hout
    intro s t hst htm x hx y hy
    have hl : (List.range m).length = m := List.length_range m
    have := hout s t (by omega) (by omega) hst
    simp only [List.getElem_range] at this
    exact this x hx y hy

theorem fetchFilePosAux_spec (rd : Nat → Option (List Nat)) :
    ∀ (h pos fuel id : Nat),
      wfTreeG rd h pos = true →
      ((treeEntriesG rd h pos).map Prod.fst).Pairwise (· < ·) →
      h ≤ fuel →
      ((∀ o l, (id, o, l) ∈ treeEntriesG rd h pos →
          fetchFilePosAux rd fuel pos id = .found o l) ∧
        (id ∉ (treeEntriesG rd h pos).map Prod.fst →
          fetchFilePosAux rd fuel pos id = .notFound)) := by
  intro h
  induction h with
  | zero =>
    intro pos fuel id hwf _ _
    simp [wfTreeG] at hwf
  | succ h ih =>
    intro pos fuel id hwf hsort hfuel
    cases fuel with
    | zero => omega
    | succ f =>
    have hsortT := hsort
    simp only [wfTreeG, Bool.and_eq_true] at hwf
    obtain ⟨hpos0, hm⟩ := hwf
    have hpos0' : ¬ pos = 0 := by simpa using hpos0
    cases hrd : rd pos with
    | none => rw [hrd] at hm; simp at hm
    | some dir =>
    rw [hrd] at hm
    simp only [Bool.and_eq_true, decide_eq_true_eq] at hm
    obtain ⟨hnlt, hch⟩ := hm
    have hstep : fetchFilePosAux rd (f + 1) pos id =
        (if scanIdx dir id (dir.getD 0x3F 0) 0 < dir.getD 0x3F 0 ∧
            dir.getD (scanIdx dir id (dir.getD 0x3F 0) 0 * 3 + 0x40) 0 = id then
          .found (dir.getD (scanIdx dir id (dir.getD 0x3F 0) 0 * 3 + 0x41) 0)
            (dir.getD (scanIdx dir id (dir.getD 0x3F 0) 0 * 3 + 0x42) 0)
        else if dir.getD 1 0 = 0 then .notFound
        else fetchFilePosAux rd f
          (dir.getD (scanIdx dir id (dir.getD 0x3F 0) 0 + 1) 0) id) := by
      simp only [fetchFilePosAux, hrd]
      rw [if_neg hpos0', if_neg (by omega : ¬ dir.getD 0x3F 0 ≥ 0x3F)]
    have hIle : scanIdx dir id (dir.getD 0x3F 0) 0 ≤ dir.getD 0x3F 0 :=
      scanIdx_le dir id _
    have hIgt : ∀ j, j < scanIdx dir id (dir.getD 0x3F 0) 0 →
        id > dir.getD (j * 3 + 0x40) 0 := scanIdx_gt_left dir id _
    have hIstop : scanIdx dir id (dir.getD 0x3F 0) 0 < dir.getD 0x3F 0 →
        id ≤ dir.getD (scanIdx dir id (dir.getD 0x3F 0) 0 * 3 + 0x40) 0 :=
      scanIdx_stop dir id _
    by_cases hleaf : dir.getD 1 0 = 0
    · -- leaf node: the node entries are the whole subtree
      have hte : treeEntriesG rd (h + 1) pos = nodeEntries dir := by
        simp only [treeEntriesG, hrd, if_pos hleaf]
      rw [hte] at hsort
      have hkmap : (nodeEntries dir).map Prod.fst =
          (List.range (dir.getD 0x3F 0)).map (fun j => dir.getD (j * 3 + 0x40) 0) := by
        simp [nodeEntries, List.map_map, Function.comp]
      have hmono : ∀ a b, a < b → b < dir.getD 0x3F 0 →
          dir.getD (a * 3 + 0x40) 0 < dir.getD (b * 3 + 0x40) 0 := by
        rw [hkmap, List.pairwise_map, List.pairwise_iff_getElem] at hsort
        simp only [List.getElem_range, List.length_range] at hsort
        intro a b hab hb
        exact hsort a b (by omega) hb hab
      constructor
      · intro o l hmem
        rw [hte] at hmem
        simp only [nodeEntries, List.mem_map, List.mem_range] at hmem
        obtain ⟨j, hj, hje⟩ := hmem
        injection hje with h1 h23
        injection h23 with h2 h3
        have hIj : scanIdx dir id (dir.getD 0x3F 0) 0 = j := by
          by_contra hne
          rcases Nat.lt_or_ge (scanIdx dir id (dir.getD 0x3F 0) 0) j with hlt | hge
          · have ha := hIstop (by omega)
            have hb := hmono _ j hlt hj
            omega
          · have hlt2 : j < scanIdx dir id (dir.getD 0x3F 0) 0 := by omega
            have := hIgt j hlt2
            omega
        rw [hstep, if_pos ⟨by omega, by rw [hIj]; exact h1⟩, hIj, h2, h3]
      · intro hnot
        rw [hte] at hnot
        have hcond : ¬ (scanIdx dir id (dir.getD 0x3F 0) 0 < dir.getD 0x3F 0 ∧
            dir.getD (scanIdx dir id (dir.getD 0x3F 0) 0 * 3 + 0x40) 0 = id) := by
          rintro ⟨hin, hkey⟩
          apply hnot
          rw [hkmap]
          exact List.mem_map.mpr ⟨_, List.mem_range.mpr hin, hkey⟩
        rw [hstep, if_neg hcond, if_pos hleaf]
    · -- inner node
      have hte : treeEntriesG rd (h + 1) pos =
          ((List.range (dir.getD 0x3F 0)).flatMap fun j =>
            treeEntriesG rd h (dir.getD (j + 1) 0) ++
              [(dir.getD (j * 3 + 0x40) 0, dir.getD (j * 3 + 0x41) 0,
                dir.getD (j * 3 + 0x42) 0)]) ++
            treeEntriesG rd h (dir.getD (dir.getD 0x3F 0 + 1) 0) := by
        simp only [treeEntriesG, hrd, if_neg hleaf]
      rw [if_neg hleaf, List.all_eq_true] at hch
      have hcwf : ∀ j, j ≤ dir.getD 0x3F 0 →
          wfTreeG rd h (dir.getD (j + 1) 0) = true := by
        intro j hj
        exact hch j (List.mem_range.mpr (by omega))
      have hkeys : (treeEntriesG rd (h + 1) pos).map Prod.fst =
          (List.range (dir.getD 0x3F 0 + 1)).flatMap (fun j =>
            if j < dir.getD 0x3F 0 then
              (treeEntriesG rd h (dir.getD (j + 1) 0)).map Prod.fst ++
                [dir.getD (j * 3 + 0x40) 0]
            else (treeEntriesG rd h (dir.getD (j + 1) 0)).map Prod.fst) := by
        rw [hte, List.map_append, List.map_flatMap, List.range_succ,
          List.flatMap_append]
        congr 1
        · apply List.flatMap_congr
          intro j hj
          rw [List.map_append, if_pos (List.mem_range.mp hj)]
          simp
        · simp only [List.flatMap_cons, List.flatMap_nil, List.append_nil]
          rw [if_neg (lt_irrefl _)]
      rw [hkeys] at hsort
      obtain ⟨hWB, hXB⟩ := blocks_pairwise _ _ hsort
      have hkeyB : ∀ j, j < dir.getD 0x3F 0 →
          dir.getD (j * 3 + 0x40) 0 ∈
            (if j < dir.getD 0x3F 0 then
              (treeEntriesG rd h (dir.getD (j + 1) 0)).map Prod.fst ++
                [dir.getD (j * 3 + 0x40) 0]
            else (treeEntriesG rd h (dir.getD (j + 1) 0)).map Prod.fst) := by
        intro j hj
        rw [if_pos hj]
        exact List.mem_append.mpr (Or.inr (List.mem_singleton.mpr rfl))
      have hEB : ∀ j, ∀ x, x ∈ treeEntriesG rd h (dir.getD (j + 1) 0) →
          x.1 ∈ (if j < dir.getD 0x3F 0 then
              (treeEntriesG rd h (dir.getD (j + 1) 0)).map Prod.fst ++
                [dir.getD (j * 3 + 0x40) 0]
            else (treeEntriesG rd h (dir.getD (j + 1) 0)).map Prod.fst) := by
        intro j x hx
        by_cases hj : j < dir.getD 0x3F 0
        · rw [if_pos hj]
          exact List.mem_append.mpr (Or.inl (List.mem_map.mpr ⟨x, hx, rfl⟩))
        · rw [if_neg hj]
          exact List.mem_map.mpr ⟨x, hx, rfl⟩
      have hEk : ∀ j, j < dir.getD 0x3F 0 →
          ∀ x, x ∈ treeEntriesG rd h (dir.getD (j + 1) 0) →
            x.1 < dir.getD (j * 3 + 0x40) 0 := by
        intro j hj x hx
        have hpw := hWB j (by omega)
        rw [if_pos hj, List.pairwise_append] at hpw
        exact hpw.2.2 x.1 (List.mem_map.mpr ⟨x, hx, rfl⟩) _
          (List.mem_singleton.mpr rfl)
      have hmono : ∀ a b, a < b → b < dir.getD 0x3F 0 →
          dir.getD (a * 3 + 0x40) 0 < dir.getD (b * 3 + 0x40) 0 := by
        intro a b hab hb
        exact hXB a b hab (by omega) _ (hkeyB a (by omega)) _ (hkeyB b hb)
      have hkE : ∀ t j, t < j → j ≤ dir.getD 0x3F 0 →
          ∀ x, x ∈ treeEntriesG rd h (dir.getD (j + 1) 0) →
            dir.getD (t * 3 + 0x40) 0 < x.1 := by
        intro t j htj hj x hx
        exact hXB t j htj (by omega) _ (hkeyB t (by omega)) _ (hEB j x hx)
      have hEsort : ∀ j, j ≤ dir.getD 0x3F 0 →
          ((treeEntriesG rd h (dir.getD (j + 1) 0)).map Prod.fst).Pairwise (· < ·) := by
        intro j hj
        have hpw := hWB j (by omega)
        by_cases hjlt : j < dir.getD 0x3F 0
        · rw [if_pos hjlt, List.pairwise_append] at hpw
          exact hpw.1
        · rwa [if_neg hjlt] at hpw
      have hBmem : ∀ j, j ≤ dir.getD 0x3F 0 → ∀ a,
          a ∈ (if j < dir.getD 0x3F 0 then
              (treeEntriesG rd h (dir.getD (j + 1) 0)).map Prod.fst ++
                [dir.getD (j * 3 + 0x40) 0]
            else (treeEntriesG rd h (dir.getD (j + 1) 0)).map Prod.fst) →
          a ∈ (treeEntriesG rd (h + 1) pos).map Prod.fst := by
        intro j hj a ha
        rw [hkeys]
        exact List.mem_flatMap.mpr ⟨j, List.mem_range.mpr (by omega), ha⟩
      have hmemE_tree : ∀ j, j ≤ dir.getD 0x3F 0 → ∀ x,
          x ∈ treeEntriesG rd h (dir.getD (j + 1) 0) →
          x ∈ treeEntriesG rd (h + 1) pos := by
        intro j hj x hx
        rw [hte]
        by_cases hjlt : j < dir.getD 0x3F 0
        · exact List.mem_append.mpr (Or.inl (List.mem_flatMap.mpr
            ⟨j, List.mem_range.mpr hjlt, List.mem_append.mpr (Or.inl hx)⟩))
        · have : j = dir.getD 0x3F 0 := by omega
          subst this
          exact List.mem_append.mpr (Or.inr hx)
      have hmeme_tree : ∀ j, j < dir.getD 0x3F 0 →
          (dir.getD (j * 3 + 0x40) 0, dir.getD (j * 3 + 0x41) 0,
            dir.getD (j * 3 + 0x42) 0) ∈ treeEntriesG rd (h + 1) pos := by
        intro j hj
        rw [hte]
        exact List.mem_append.mpr (Or.inl (List.mem_flatMap.mpr
          ⟨j, List.mem_range.mpr hj, List.mem_append.mpr
            (Or.inr (List.mem_singleton.mpr rfl))⟩))
      constructor
      · intro o l hmem
        have hchild : ∀ j, j ≤ dir.getD 0x3F 0 →
            (id, o, l) ∈ treeEntriesG rd h (dir.getD (j + 1) 0) →
            fetchFilePosAux rd (f + 1) pos id = .found o l := by
          intro j hj hxE
          by_cases hco : scanIdx dir id (dir.getD 0x3F 0) 0 < dir.getD 0x3F 0 ∧
              dir.getD (scanIdx dir id (dir.getD 0x3F 0) 0 * 3 + 0x40) 0 = id
          · rw [hstep, if_pos hco]
            have hxT := hmemE_tree j hj _ hxE
            have heT := hmeme_tree _ hco.1
            have hux := entries_key_unique _ (List.pairwise_map.mp hsortT)
              _ heT (id, o, l) hxT (by simpa using hco.2)
            injection hux with hu1 hu23
            injection hu23 with hu2 hu3
            rw [hu2, hu3]
          · rw [hstep, if_neg hco, if_neg hleaf]
            have hIj : scanIdx dir id (dir.getD 0x3F 0) 0 = j := by
              by_contra hne
              rcases Nat.lt_or_ge (scanIdx dir id (dir.getD 0x3F 0) 0) j
                with hlt | hge
              · have ha := hIstop (by omega)
                have hb := hkE _ j hlt hj _ hxE
                simp only at hb
                omega
              · have hlt2 : j < scanIdx dir id (dir.getD 0x3F 0) 0 := by omega
                have ha := hIgt j hlt2
                have hb := hEk j (by omega) _ hxE
                simp only at hb
                omega
            rw [hIj]
            exact (ih (dir.getD (j + 1) 0) f id (hcwf j hj) (hEsort j hj)
              (by omega)).1 o l hxE
        rw [hte] at hmem
        rcases List.mem_append.mp hmem with hA | hEn
        · rw [List.mem_flatMap] at hA
          obtain ⟨j, hjr, hxm⟩ := hA
          have hj := List.mem_range.mp hjr
          rcases List.mem_append.mp hxm with hxE | hxe
          · exact hchild j (by omega) hxE
          · have hje := List.mem_singleton.mp hxe
            injection hje with h1 h23
            injection h23 with h2 h3
            have hIj : scanIdx dir id (dir.getD 0x3F 0) 0 = j := by
              by_contra hne
              rcases Nat.lt_or_ge (scanIdx dir id (dir.getD 0x3F 0) 0) j
                with hlt | hge
              · have ha := hIstop (by omega)
                have hb := hmono _ j hlt hj
                omega
              · have hlt2 : j < scanIdx dir id (dir.getD 0x3F 0) 0 := by omega
                have := hIgt j hlt2
                omega
            rw [hstep, if_pos ⟨by omega, by rw [hIj, ← h1]⟩, hIj, ← h2, ← h3]
        · exact hchild (dir.getD 0x3F 0) (le_refl _) hEn
      · intro hnot
        have hcond : ¬ (scanIdx dir id (dir.getD 0x3F 0) 0 < dir.getD 0x3F 0 ∧
            dir.getD (scanIdx dir id (dir.getD 0x3F 0) 0 * 3 + 0x40) 0 = id) := by
          rintro ⟨hin, hkey⟩
          apply hnot
          exact hkey ▸ hBmem (scanIdx dir id (dir.getD 0x3F 0) 0) (by omega)
            (dir.getD (scanIdx dir id (dir.getD 0x3F 0) 0 * 3 + 0x40) 0)
            (hkeyB _ hin)
        rw [hstep, if_neg hcond, if_neg hleaf]
        apply (ih (dir.getD (scanIdx dir id (dir.getD 0x3F 0) 0 + 1) 0) f id
          (hcwf _ hIle) (hEsort _ hIle) (by omega)).2
        intro hmm
        apply hnot
        rw [List.mem_map] at hmm
        obtain ⟨x, hx, hx1⟩ := hmm
        have := hEB (scanIdx dir id (dir.getD 0x3F 0) 0) x hx
        rw [hx1] at this
        exact hBmem _ hIle id this

/-- Claim C1: directory lookup totality.  Over any wellformed on-disk
directory B-tree with strictly ascending in-order keys — in either dialect,
nodes loaded by readNodeP (exp.c, acbmp.c) or readNodeC (exc.c) — for every
key present in the tree FetchFilePos returns that key's stored
(offset, length) pair, and for every key not present it returns NotFound;
keys are naturals (exact unsigned comparison) and a hit requires exact
equality. -/
theorem directory_lookup_totality :
    (∀ (disk : Disk) (h pos fuel id : Nat),
      wfTreeG (readNodeP disk) h pos = true →
      ((treeEntriesG (readNodeP disk) h pos).map Prod.fst).Pairwise (· < ·) →
      h ≤ fuel →
      ((∀ o l, (id, o, l) ∈ treeEntriesG (readNodeP disk) h pos →
          fetchFilePos disk fuel pos id = .found o l) ∧
        (id ∉ (treeEntriesG (readNodeP disk) h pos).map Prod.fst →
          fetchFilePos disk fuel pos id = .notFound))) ∧
    (∀ (disk : Disk) (h pos fuel id : Nat),
      wfTreeG (readNodeC disk) h pos = true →
      ((treeEntriesG (readNodeC disk) h pos).map Prod.fst).Pairwise (· < ·) →
      h ≤ fuel →
      ((∀ o l, (id, o, l) ∈ treeEntriesG (readNodeC disk) h pos →
          fetchFilePosC disk fuel pos id = .found o l) ∧
        (id ∉ (treeEntriesG (readNodeC disk) h pos).map Prod.fst →
          fetchFilePosC disk fuel pos id = .notFound))) :=
  ⟨fun disk h pos fuel id hwf hs hf =>
      fetchFilePosAux_spec (readNodeP disk) h pos fuel id hwf hs hf,
    fun disk h pos fuel id hwf hs hf =>
      fetchFilePosAux_spec (readNodeC disk) h pos fuel id hwf hs hf⟩

set_option maxRecDepth 16000 in
theorem directory_lookup_totality_witness :
    (fetchFilePos wDiskP 2 8 50 = .found 1 2 ∧
      fetchFilePos wDiskP 2 8 60 = .notFound) ∧
    (fetchFilePosC wDiskC6b 1 8 42 = .found 5 6 ∧
      fetchFilePosC wDiskC6b 1 8 7 = .notFound) :=
  ⟨⟨(directory_lookup_totality.1 wDiskP 2 8 2 50 (by decide) (by decide)
        (by decide)).1 1 2 (by decide),
      (directory_lookup_totality.1 wDiskP 2 8 2 60 (by decide) (by decide)
        (by decide)).2 (by decide)⟩,
    ⟨(directory_lookup_totality.2 wDiskC6b 1 8 1 42 (by decide) (by decide)
        (by decide)).1 5 6 (by decide),
      (directory_lookup_totality.2 wDiskC6b 1 8 1 7 (by decide) (by decide)
        (by decide)).2 (by decide)⟩⟩

set_option maxRecDepth 16000 in
/-- Claim C3 counterexample: in the synthetic PORTAL tree, the root node's
logical word 0x000 is 0 while its first child pointer is word 0x001 = 16;
key 50 is not among the root's entries, yet the lookup does not return
NotFound (as it would if word 0x000 decided leafness): it recurses through
word 0x001 and finds the key in the child. -/
theorem child_slot_off_by_one :
    (wRoot.getD 0 0 = 0 ∧ wRoot.getD 1 0 = 16 ∧
      50 ∉ (nodeEntries wRoot).map Prod.fst) ∧
    fetchFilePos wDiskP 2 8 50 = .found 1 2 :=
  ⟨⟨by decide, by decide, by decide⟩, by decide⟩

/-- Claim C3 (amended): in a reconstituted directory node, word 0x000 is
the sector next-pointer slot (the dialect-C chain word; unused by the
lookup), the first child subtree pointer is logical word 0x001, and the
node is a leaf exactly when word 0x001 is 0.  When no entry key equals the
search key at scan index i, the search returns NotFound if word 0x001 is 0
and otherwise recurses into the child pointer stored at word index i + 1. -/
theorem leaf_test_and_child_slots (rd : Nat → Option (List Nat))
    (fuel pos id : Nat) (dir : List Nat)
    (hpos : pos ≠ 0)
    (hrd : rd pos = some dir)
    (hn : dir.getD 0x3F 0 < 0x3F)
    (hmiss : ¬ (scanIdx dir id (dir.getD 0x3F 0) 0 < dir.getD 0x3F 0 ∧
      dir.getD (scanIdx dir id (dir.getD 0x3F 0) 0 * 3 + 0x40) 0 = id)) :
    (dir.getD 1 0 = 0 →
      fetchFilePosAux rd (fuel + 1) pos id = .notFound) ∧
    (dir.getD 1 0 ≠ 0 →
      fetchFilePosAux rd (fuel + 1) pos id =
        fetchFilePosAux rd fuel
          (dir.getD (scanIdx dir id (dir.getD 0x3F 0) 0 + 1) 0) id) := by
  constructor
  · intro hleaf
    simp only [fetchFilePosAux, hrd]
    rw [if_neg (by simpa using hpos),
      if_neg (by omega : ¬ dir.getD 0x3F 0 ≥ 0x3F), if_neg hmiss, if_pos hleaf]
  · intro hleaf
    simp only [fetchFilePosAux, hrd]
    rw [if_neg (by simpa using hpos),
      if_neg (by omega : ¬ dir.getD 0x3F 0 ≥ 0x3F), if_neg hmiss, if_neg hleaf]

set_option maxRecDepth 16000 in
theorem leaf_test_and_child_slots_witness :
    fetchFilePosAux (readNodeP wDiskP) 2 16 60 = .notFound ∧
      fetchFilePosAux (readNodeP wDiskP) 2 8 60 =
        fetchFilePosAux (readNodeP wDiskP) 1
          (wRoot.getD (scanIdx wRoot 60 (wRoot.getD 0x3F 0) 0 + 1) 0) 60 :=
  ⟨(leaf_test_and_child_slots (readNodeP wDiskP) 1 16 60 wLeafA (by decide)
      (by decide) (by decide) (by decide)).1 (by decide),
    (leaf_test_and_child_slots (readNodeP wDiskP) 1 8 60 wRoot (by decide)
      (by decide) (by decide) (by decide)).2 (by decide)⟩

/-- Claim C7: probe–traversal equivalence.  For an 8-bit type value t,
probing every possible low-24-bit value in ascending order through the
directory lookup yields exactly the same list of (key, offset, length) hits,
in ascending key order, as the in-order traversal of the directory tree
filtered to keys whose high byte is t. -/
theorem probe_traversal_equiv (rd : Nat → Option (List Nat))
    (h pos fuel t : Nat)
    (ht : t < 2 ^ 8)
    (hwf : wfTreeG rd h pos = true)
    (hsort : ((treeEntriesG rd h pos).map Prod.fst).Pairwise (· < ·))
    (hfuel : h ≤ fuel) :
    probeHits rd fuel pos t =
      (treeEntriesG rd h pos).filter (fun e => e.1 / 2 ^ 24 = t) := by
  have hspec := fun k => fetchFilePosAux_spec rd h pos fuel k hwf hsort hfuel
  have hpwE : (treeEntriesG rd h pos).Pairwise (fun a b : DirEntry => a.1 < b.1) :=
    List.pairwise_map.mp hsort
  have hfound : ∀ k o l, fetchFilePosAux rd fuel pos k = .found o l ↔
      (k, o, l) ∈ treeEntriesG rd h pos := by
    intro k o l
    constructor
    · intro hf
      by_cases hk : k ∈ (treeEntriesG rd h pos).map Prod.fst
      · rw [List.mem_map] at hk
        obtain ⟨⟨k2, o2, l2⟩, hx, rfl⟩ := hk
        have hf2 := (hspec _).1 o2 l2 hx
        rw [hf] at hf2
        injection hf2 with ho hl
        rw [ho, hl]
        exact hx
      · have := (hspec k).2 hk
        rw [hf] at this
        exact FetchResult.noConfusion this
    · intro hm
      exact (hspec k).1 o l hm
  have hmemP : ∀ k2 o2 l2 : Nat, (k2, o2, l2) ∈ probeHits rd fuel pos t ↔
      ((k2, o2, l2) ∈ treeEntriesG rd h pos ∧ k2 / 2 ^ 24 = t) := by
    intro k2 o2 l2
    unfold probeHits
    rw [List.mem_filterMap]
    constructor
    · rintro ⟨i, hir, hfi⟩
      have hi := List.mem_range.mp hir
      cases hres : fetchFilePosAux rd fuel pos (t * 2 ^ 24 + i) with
      | found o l =>
        rw [hres] at hfi
        simp only [Option.some.injEq] at hfi
        injection hfi with e1 e23
        injection e23 with e2 e3
        subst e1
        subst e2
        subst e3
        exact ⟨(hfound _ o l).mp hres, by omega⟩
      | notFound => rw [hres] at hfi; simp at hfi
      | err => rw [hres] at hfi; simp at hfi
    · rintro ⟨hxE, hxt⟩
      refine ⟨k2 - t * 2 ^ 24, List.mem_range.mpr (by omega), ?_⟩
      have hk : t * 2 ^ 24 + (k2 - t * 2 ^ 24) = k2 := by omega
      rw [hk, (hfound k2 o2 l2).mpr hxE]
  have hpwP : (probeHits rd fuel pos t).Pairwise
      (fun a b : DirEntry => a.1 < b.1) := by
    unfold probeHits
    rw [List.pairwise_filterMap]
    refine (List.pairwise_lt_range (2 ^ 24)).imp ?_
    intro a b hab x hx y hy
    cases hra : fetchFilePosAux rd fuel pos (t * 2 ^ 24 + a) with
    | found o l =>
      rw [hra] at hx
      simp only [Option.mem_def, Option.some.injEq] at hx
      cases hrb : fetchFilePosAux rd fuel pos (t * 2 ^ 24 + b) with
      | found o2 l2 =>
        rw [hrb] at hy
        simp only [Option.mem_def, Option.some.injEq] at hy
        subst hx
        subst hy
        show t * 2 ^ 24 + a < t * 2 ^ 24 + b
        omega
      | notFound => rw [hrb] at hy; simp at hy
      | err => rw [hrb] at hy; simp at hy
    | notFound => rw [hra] at hx; simp at hx
    | err => rw [hra] at hx; simp at hx
  have hpwF : ((treeEntriesG rd h pos).filter
      (fun e => e.1 / 2 ^ 24 = t)).Pairwise (fun a b : DirEntry => a.1 < b.1) :=
    List.Pairwise.sublist (List.filter_sublist _) hpwE
  have hndP : (probeHits rd fuel pos t).Nodup :=
    hpwP.imp fun hab => by
      intro heq
      rw [heq] at hab
      exact lt_irrefl _ hab
  have hndF : ((treeEntriesG rd h pos).filter
      (fun e => e.1 / 2 ^ 24 = t)).Nodup :=
    hpwF.imp fun hab => by
      intro heq
      rw [heq] at hab
      exact lt_irrefl _ hab
  have hperm : (probeHits rd fuel pos t).Perm
      ((treeEntriesG rd h pos).filter (fun e => e.1 / 2 ^ 24 = t)) := by
    rw [List.perm_ext_iff_of_nodup hndP hndF]
    intro x
    obtain ⟨k2, o2, l2⟩ := x
    rw [hmemP k2 o2 l2, List.mem_filter]
    simp only [decide_eq_true_eq]
  haveI : IsAntisymm DirEntry (fun a b : DirEntry => a.1 < b.1) :=
    ⟨fun a b h1 h2 => ((lt_irrefl _ (h1.trans h2)).elim)⟩
  exact List.eq_of_perm_of_sorted hperm hpwP hpwF

set_option maxRecDepth 16000 in
theorem probe_traversal_equiv_witness :
    probeHits (readNodeP wDiskP) 2 8 0 =
      (treeEntriesG (readNodeP wDiskP) 2 8).filter (fun e => e.1 / 2 ^ 24 = 0) :=
  probe_traversal_equiv (readNodeP wDiskP) 2 8 2 0 (by decide) (by decide)
    (by decide) (by decide)

/-- Claim C10: FetchFilePos writes its caller-supplied output cells exactly
when it returns success.  The out-parameter rendering of the lookup agrees
with the result-style one: on every failure path, including the not-found
path (where the C code assigns the local pointer variables, not the
pointees), the output pair keeps its prior value; on success it holds the
entry's (offset, length). -/
theorem lookup_outputs_on_success_only (rd : Nat → Option (List Nat))
    (fuel pos id : Nat) (out : Nat × Nat) :
    fetchFilePosAuxOut rd fuel pos id out =
      (match fetchFilePosAux rd fuel pos id with
       | .found o l => (true, (o, l))
       | .notFound => (false, out)
       | .err => (false, out)) := by
  induction fuel generalizing pos with
  | zero => rfl
  | succ f ih =>
    simp only [fetchFilePosAuxOut, fetchFilePosAux]
    by_cases h0 : pos = 0
    · rw [if_pos h0, if_pos h0]
    · rw [if_neg h0, if_neg h0]
      cases hrd : rd pos with
      | none => simp
      | some dir =>
        simp only []
        by_cases hn : dir.getD 0x3F 0 ≥ 0x3F
        · rw [if_pos hn, if_pos hn]
        · rw [if_neg hn, if_neg hn]
          by_cases hco : scanIdx dir id (dir.getD 0x3F 0) 0 < dir.getD 0x3F 0 ∧
              dir.getD (scanIdx dir id (dir.getD 0x3F 0) 0 * 3 + 0x40) 0 = id
          · rw [if_pos hco, if_pos hco]
          · rw [if_neg hco, if_neg hco]
            by_cases hleaf : dir.getD 1 0 = 0
            · rw [if_pos hleaf, if_pos hleaf]
            · rw [if_neg hleaf, if_neg hleaf]
              exact ih _

theorem foldl_setCell_notin {α : Type} (l : List α) (fr fc : α → Nat)
    (g : α → LandCell) :
    ∀ (m : LandMap) (p : Nat × Nat),
      (∀ a ∈ l, (fr a, fc a) ≠ p) →
      (l.foldl (fun m2 a => setCell m2 (fr a) (fc a) (g a)) m) p = m p := by
  induction l with
  | nil => intro m p _; rfl
  | cons b l ih =>
    intro m p hp
    simp only [List.foldl_cons]
    rw [ih _ p (fun a ha => hp a (List.mem_cons_of_mem _ ha))]
    simp only [setCell]
    rw [if_neg (fun hcontra => hp b (List.mem_cons_self _ _) hcontra.symm)]

theorem foldl_setCell_unique {α : Type} (l : List α) (fr fc : α → Nat)
    (g : α → LandCell) :
    ∀ (m : LandMap) (p : Nat × Nat) (a0 : α),
      a0 ∈ l → (fr a0, fc a0) = p →
      (∀ a ∈ l, (fr a, fc a) = p → a = a0) →
      (l.foldl (fun m2 a => setCell m2 (fr a) (fc a) (g a)) m) p = g a0 := by
  induction l with
  | nil => intro m p a0 ha0; cases ha0
  | cons b l ih =>
    intro m p a0 ha0 hpos huniq
    simp only [List.foldl_cons]
    by_cases hlater : ∃ a ∈ l, (fr a, fc a) = p
    · obtain ⟨a, hal, hap⟩ := hlater
      have haa0 : a = a0 := huniq a (List.mem_cons_of_mem _ hal) hap
      subst haa0
      exact ih _ p a hal hpos
        (fun a2 ha2 hp2 => huniq a2 (List.mem_cons_of_mem _ ha2) hp2)
    · push_neg at hlater
      have ha0b : a0 = b := by
        rcases List.mem_cons.mp ha0 with h | h
        · exact h
        · exact absurd hpos (hlater a0 h)
      subst ha0b
      rw [foldl_setCell_notin l fr fc g _ p hlater]
      simp only [setCell]
      rw [if_pos hpos.symm]

theorem foldl_flatMap_eq {α β γ : Type} (l : List α) (f : α → List β)
    (g : γ → β → γ) :
    ∀ (init : γ),
      (l.flatMap f).foldl g init = l.foldl (fun c a => (f a).foldl g c) init := by
  induction l with
  | nil => intro init; rfl
  | cons a l ih =>
    intro init
    simp only [List.flatMap_cons, List.foldl_append, List.foldl_cons]
    exact ih _

theorem writeLandData_flat (sec : List Nat) (bX bY : Nat) (land : LandMap) :
    writeLandData sec bX bY land =
      ((List.range 9).flatMap fun x => (List.range 9).map fun y => (x, y)).foldl
        (fun m2 (xy : Nat × Nat) =>
          setCell m2 (2041 - bY * 8 - 1 - xy.2) (bX * 8 + xy.1)
            { type := sec.getD (12 + 2 * (xy.1 * 9 + xy.2)) 0 +
                256 * sec.getD (12 + 2 * (xy.1 * 9 + xy.2) + 1) 0,
              z := sec.getD (174 + (xy.1 * 9 + xy.2)) 0,
              used := true }) land := by
  rw [foldl_flatMap_eq]
  unfold writeLandData
  simp only [List.foldl_map]

/-- Claim C8: landblock placement.  For a landblock record sector whose id
word decodes to block indices X (high byte) and Y (second byte), both below
0xFF, the aggregator writes the 81 type codes (little-endian ushorts from
byte 12, column-major, 9 columns by 9 rows) and 81 height codes (bytes from
byte 174, same order) so that sample (col = x, row = y) lands at map row
2041 − 8·Y − 1 − y, map column 8·X + x, with the cell's used flag set. -/
theorem landblock_placement (sec : List Nat) (land : LandMap) (k x y : Nat)
    (hk : wordAtB sec 1 = k)
    (hX : k / 2 ^ 24 < 255) (hY : k / 2 ^ 16 % 2 ^ 8 < 255)
    (hx : x < 9) (hy : y < 9) :
    processLandblock sec land
        (2041 - 8 * (k / 2 ^ 16 % 2 ^ 8) - 1 - y, 8 * (k / 2 ^ 24) + x) =
      { type := sec.getD (12 + 2 * (x * 9 + y)) 0 +
          256 * sec.getD (12 + 2 * (x * 9 + y) + 1) 0,
        z := sec.getD (174 + (x * 9 + y)) 0,
        used := true } := by
  unfold processLandblock
  rw [hk, writeLandData_flat]
  rw [show 8 * (k / 2 ^ 16 % 2 ^ 8) = (k / 2 ^ 16 % 2 ^ 8) * 8 from Nat.mul_comm _ _,
    show 8 * (k / 2 ^ 24) = (k / 2 ^ 24) * 8 from Nat.mul_comm _ _]
  refine foldl_setCell_unique
    ((List.range 9).flatMap fun x2 => (List.range 9).map fun y2 => (x2, y2))
    (fun xy => 2041 - (k / 2 ^ 16 % 2 ^ 8) * 8 - 1 - xy.2)
    (fun xy => (k / 2 ^ 24) * 8 + xy.1)
    (fun xy =>
      { type := sec.getD (12 + 2 * (xy.1 * 9 + xy.2)) 0 +
          256 * sec.getD (12 + 2 * (xy.1 * 9 + xy.2) + 1) 0,
        z := sec.getD (174 + (xy.1 * 9 + xy.2)) 0,
        used := true })
    land _ (x, y) ?_ rfl ?_
  · exact List.mem_flatMap.mpr ⟨x, List.mem_range.mpr hx,
      List.mem_map.mpr ⟨y, List.mem_range.mpr hy, rfl⟩⟩
  · rintro ⟨x2, y2⟩ hmem2 hpos2
    rw [List.mem_flatMap] at hmem2
    obtain ⟨x3, hx3, hmm⟩ := hmem2
    rw [List.mem_map] at hmm
    obtain ⟨y3, hy3, heq⟩ := hmm
    injection heq with e1 e2
    subst e1
    subst e2
    have hx3r := List.mem_range.mp hx3
    have hy3r := List.mem_range.mp hy3
    injection hpos2 with p1 p2
    simp only [] at p1 p2
    have hxx : x3 = x := by omega
    have hyy : y3 = y := by omega
    rw [hxx, hyy]

set_option maxRecDepth 8000 in
theorem landblock_placement_witness :
    processLandblock (List.range 256) (fun _ => { type := 0, z := 0, used := false })
        (1992, 56) =
      { type := 3340, z := 174, used := true } :=
  landblock_placement (List.range 256) _ 117835012 0 0 (by decide) (by decide)
    (by decide) (by decide) (by decide)

theorem wordAtB_cons4 (w : Nat) (ys : List Nat) (j : Nat) :
    wordAtB (toLE4 w ++ ys) (j + 1) = wordAtB ys j := by
  have h4 : (toLE4 w).length = 4 := rfl
  unfold wordAtB
  rw [List.getD_append_right _ _ _ _ (by rw [h4]; omega),
    List.getD_append_right _ _ _ _ (by rw [h4]; omega),
    List.getD_append_right _ _ _ _ (by rw [h4]; omega),
    List.getD_append_right _ _ _ _ (by rw [h4]; omega), h4]
  rw [show 4 * (j + 1) - 4 = 4 * j from by omega,
    show 4 * (j + 1) + 1 - 4 = 4 * j + 1 from by omega,
    show 4 * (j + 1) + 2 - 4 = 4 * j + 2 from by omega,
    show 4 * (j + 1) + 3 - 4 = 4 * j + 3 from by omega]

theorem wordAtB_zero_le4 (w : Nat) (ys : List Nat) (hw : w < 2 ^ 32) :
    wordAtB (toLE4 w ++ ys) 0 = w := by
  have e : wordAtB (toLE4 w ++ ys) 0 =
      w % 256 + 256 * (w / 256 % 256) + 65536 * (w / 65536 % 256) +
        16777216 * (w / 16777216 % 256) := rfl
  rw [e]
  omega

theorem wordAtB_skip_exact (idx rest : List Nat) (j : Nat)
    (hj : 4 * j = idx.length) :
    wordAtB (idx ++ rest) j = wordAtB rest 0 := by
  unfold wordAtB
  rw [List.getD_append_right _ _ _ _ (by omega),
    List.getD_append_right _ _ _ _ (by omega),
    List.getD_append_right _ _ _ _ (by omega),
    List.getD_append_right _ _ _ _ (by omega)]
  rw [show 4 * j - idx.length = 4 * 0 from by omega,
    show 4 * j + 1 - idx.length = 4 * 0 + 1 from by omega,
    show 4 * j + 2 - idx.length = 4 * 0 + 2 from by omega,
    show 4 * j + 3 - idx.length = 4 * 0 + 3 from by omega]

/-- Claim C9 (amended): for a palettized record of width W and height H,
the decoder locates the palette-reference key list by skipping the 4-word
header plus the W·H index bytes rounded DOWN to whole 32-bit words
(`imageH * imageW / 4` words), and resolves only the first key found there;
this coincides with the word-aligned key list of the record format exactly
when W·H is a multiple of 4. -/
theorem palette_ref_location (idw ty W H : Nat) (idx rest : List Nat)
    (hW : W < 2 ^ 32) (hH : H < 2 ^ 32)
    (hidx : idx.length = W * H) (hdvd : W * H % 4 = 0) :
    acbmpPalKey (toLE4 idw ++ toLE4 ty ++ toLE4 W ++ toLE4 H ++ idx ++ rest) =
      wordAtB rest 0 := by
  simp only [List.append_assoc]
  have hWr : wordAtB (toLE4 idw ++ (toLE4 ty ++ (toLE4 W ++ (toLE4 H ++
      (idx ++ rest))))) 2 = W := by
    rw [show (2 : Nat) = 1 + 1 from rfl, wordAtB_cons4,
      show (1 : Nat) = 0 + 1 from rfl, wordAtB_cons4, wordAtB_zero_le4 _ _ hW]
  have hHr : wordAtB (toLE4 idw ++ (toLE4 ty ++ (toLE4 W ++ (toLE4 H ++
      (idx ++ rest))))) 3 = H := by
    rw [show (3 : Nat) = 2 + 1 from rfl, wordAtB_cons4,
      show (2 : Nat) = 1 + 1 from rfl, wordAtB_cons4,
      show (1 : Nat) = 0 + 1 from rfl, wordAtB_cons4, wordAtB_zero_le4 _ _ hH]
  unfold acbmpPalKey
  rw [hWr, hHr]
  unfold acbmpPalIdx
  rw [show H * W / 4 + 4 = (H * W / 4 + 3) + 1 from by omega, wordAtB_cons4,
    show H * W / 4 + 3 = (H * W / 4 + 2) + 1 from by omega, wordAtB_cons4,
    show H * W / 4 + 2 = (H * W / 4 + 1) + 1 from by omega, wordAtB_cons4,
    show H * W / 4 + 1 = (H * W / 4) + 1 from rfl, wordAtB_cons4]
  have hdvd2 : H * W % 4 = 0 := by rw [Nat.mul_comm]; exact hdvd
  exact wordAtB_skip_exact idx rest _ (by rw [hidx, Nat.mul_comm W H]; omega)

/-- Claim C9 counterexample: for a record of width 1 and height 5 (five
index bytes), the first palette key sits at the rounded-UP word position
4 + ceil(5/4) = 6 of the record, but the decoder reads the word at position
4 + floor(5/4) = 5 (the last index byte plus padding) instead. -/
theorem palette_ref_rounds_down :
    acbmpPalKey wPalBuf = 5 ∧
      wordAtB wPalBuf (4 + (wordAtB wPalBuf 2 * wordAtB wPalBuf 3 + 3) / 4) =
        3735928559 ∧
      acbmpPalKey wPalBuf ≠
        wordAtB wPalBuf (4 + (wordAtB wPalBuf 2 * wordAtB wPalBuf 3 + 3) / 4) :=
  ⟨by decide, by decide, by decide⟩

theorem palette_ref_location_witness :
    acbmpPalKey (toLE4 170 ++ toLE4 2 ++ toLE4 2 ++ toLE4 2 ++ [9, 8, 7, 6] ++
        [77, 0, 0, 0]) = wordAtB [77, 0, 0, 0] 0 :=
  palette_ref_location 170 2 2 2 [9, 8, 7, 6] [77, 0, 0, 0] (by decide)
    (by decide) (by decide) (by decide)
